import Mathlib

/-!
Shallow embedding of the score-aggregation and ranking-cache synchronization
subsystem of the real-time-leaderboard repository.

Sources embedded:
  * `core/redis_utils.py` — `LeaderboardManager` backed by a Redis sorted set
    (`zadd`, `zrevrange`, `zrevrank`, `zscore`).
  * `core/signals.py` — the `post_save` handler
    `update_leaderboard_on_submission` (re-entrancy guard, full recomputation,
    targeted DB update, cache upsert).
  * `core/views.py` — `RealTimeLeaderboardView.get` (merging Redis data with
    user attributes).

The Redis sorted set is modelled as an association list from member (the
stringified user id, exactly what the code passes) to an integer score.  The
code only ever stores integer scores (`new_total_score` is an integer sum and
`get_top_users` / `get_user_rank_and_score` convert the returned float back
with `int(...)`), so scores are `Int` here.  Redis orders members of a sorted
set by score ascending, ties broken by lexicographic byte order of the member
string; the `ZREV*` commands traverse that order in reverse, so the reading
order is score descending with ties in lexicographically *descending* member
order.
-/

abbrev Member := String

/-- Redis `ZADD key {member: score}`: insert the member or replace its score.
Membership is a set keyed by member; position in the ordering is derived from
(score, member) only, never from insertion order. -/
def zadd (z : List (Member × Int)) (m : Member) (s : Int) : List (Member × Int) :=
  if z.any (fun p => p.1 = m) then
    z.map (fun p => if p.1 = m then (m, s) else p)
  else
    z ++ [(m, s)]

/-- Byte-wise lexicographic "less or equal" on character lists, mirroring the
`memcmp` order Redis uses to break score ties among sorted-set members (for
UTF-8 encoded strings, byte order and code-point order agree). -/
def lexLe : List Char → List Char → Bool
  | [], _ => true
  | _ :: _, [] => false
  | a :: as, b :: bs =>
    if a.toNat < b.toNat then true
    else if b.toNat < a.toNat then false
    else lexLe as bs

theorem lexLe_total (x y : List Char) : lexLe x y = true ∨ lexLe y x = true := by
  induction x generalizing y with
  | nil => exact Or.inl rfl
  | cons a as ih =>
    cases y with
    | nil => exact Or.inr rfl
    | cons b bs =>
      rcases Nat.lt_trichotomy a.toNat b.toNat with h | h | h
      · exact Or.inl (by simp [lexLe, h])
      · rcases ih bs with h' | h'
        · exact Or.inl (by simp [lexLe, h, h'])
        · exact Or.inr (by simp [lexLe, h, h'])
      · exact Or.inr (by simp [lexLe, h])

theorem lexLe_trans {x y z : List Char} (hxy : lexLe x y = true)
    (hyz : lexLe y z = true) : lexLe x z = true := by
  induction x generalizing y z with
  | nil => rfl
  | cons a as ih =>
    cases y with
    | nil => simp [lexLe] at hxy
    | cons b bs =>
      cases z with
      | nil => simp [lexLe] at hyz
      | cons c cs =>
        simp only [lexLe] at hxy hyz ⊢
        rcases Nat.lt_trichotomy a.toNat b.toNat with h1 | h1 | h1
        · rcases Nat.lt_trichotomy b.toNat c.toNat with h2 | h2 | h2
          · rw [if_pos (Nat.lt_trans h1 h2)]
          · rw [if_pos (h2 ▸ h1)]
          · rw [if_neg (by omega), if_pos h2] at hyz
            exact absurd hyz (by simp)
        · rw [if_neg (by omega), if_neg (by omega)] at hxy
          rcases Nat.lt_trichotomy b.toNat c.toNat with h2 | h2 | h2
          · rw [if_pos (by omega)]
          · rw [if_neg (by omega), if_neg (by omega)] at hyz
            rw [if_neg (by omega), if_neg (by omega)]
            exact ih hxy hyz
          · rw [if_neg (by omega), if_pos h2] at hyz
            exact absurd hyz (by simp)
        · rw [if_neg (by omega), if_pos h1] at hxy
          exact absurd hxy (by simp)

theorem char_eq_of_toNat_eq {a b : Char} (h : a.toNat = b.toNat) : a = b := by
  apply Char.eq_of_val_eq
  apply UInt32.eq_of_toBitVec_eq
  apply BitVec.eq_of_toNat_eq
  simpa [Char.toNat, UInt32.toNat] using h

theorem lexLe_antisymm {x y : List Char} (hxy : lexLe x y = true)
    (hyx : lexLe y x = true) : x = y := by
  induction x generalizing y with
  | nil =>
    cases y with
    | nil => rfl
    | cons b bs => simp [lexLe] at hyx
  | cons a as ih =>
    cases y with
    | nil => simp [lexLe] at hxy
    | cons b bs =>
      simp only [lexLe] at hxy hyx
      rcases Nat.lt_trichotomy a.toNat b.toNat with h | h | h
      · simp [h, Nat.lt_asymm h] at hyx
      · have hab : a = b := char_eq_of_toNat_eq h
        simp only [show ¬a.toNat < b.toNat by omega,
          show ¬b.toNat < a.toNat by omega, if_false] at hxy hyx
        rw [hab, ih hxy hyx]
      · simp [Nat.lt_asymm h, h] at hxy

/-- The reverse (reading) order of Redis `ZREV*` commands: `a` comes no later
than `b` iff `a` has the strictly larger score, or the scores tie and `a`'s
member string is byte-wise lexicographically no smaller. -/
def zrevLe (a b : Member × Int) : Prop :=
  b.2 < a.2 ∨ (a.2 = b.2 ∧ lexLe b.1.data a.1.data = true)

instance : DecidableRel zrevLe := fun a b => by
  unfold zrevLe; infer_instance

instance : IsTotal (Member × Int) zrevLe where
  total a b := by
    rcases lt_trichotomy a.2 b.2 with h | h | h
    · exact Or.inr (Or.inl h)
    · rcases lexLe_total a.1.data b.1.data with h' | h'
      · exact Or.inr (Or.inr ⟨h.symm, h'⟩)
      · exact Or.inl (Or.inr ⟨h, h'⟩)
    · exact Or.inl (Or.inl h)

instance : IsTrans (Member × Int) zrevLe where
  trans a b c hab hbc := by
    rcases hab with h1 | ⟨h1, h1'⟩
    · rcases hbc with h2 | ⟨h2, _⟩
      · exact Or.inl (h2.trans h1)
      · exact Or.inl (h2 ▸ h1)
    · rcases hbc with h2 | ⟨h2, h2'⟩
      · exact Or.inl (h1 ▸ h2)
      · exact Or.inr ⟨h1.trans h2, lexLe_trans h2' h1'⟩

/-- The members of the sorted set in the reading order of `ZREVRANGE`:
score descending, ties by member lexicographically descending. -/
def zrevSorted (z : List (Member × Int)) : List (Member × Int) :=
  z.insertionSort zrevLe

/-- Redis `ZREVRANGE key 0 stop WITHSCORES`.  A negative `stop` counts from the
end of the set (`-1` is the last element); an out-of-range `stop` is clamped to
the last element; if the effective stop is before the start the result is
empty. -/
def zrevrangeWithScores (z : List (Member × Int)) (stop : Int) : List (Member × Int) :=
  let n : Int := z.length
  let stop' : Int := if stop < 0 then n + stop else stop
  if stop' < 0 then [] else (zrevSorted z).take (stop'.toNat + 1)

/-- First entry of the association list with the given member key. -/
def findEntry (m : Member) : List (Member × Int) → Option (Member × Int)
  | [] => none
  | p :: rest => if p.1 = m then some p else findEntry m rest

/-- Redis `ZSCORE key member`. -/
def zscore (z : List (Member × Int)) (m : Member) : Option Int :=
  (findEntry m z).map (·.2)

/-- Index of the first entry with the given member key. -/
def findKeyIdx (m : Member) : List (Member × Int) → Option Nat
  | [] => none
  | p :: rest => if p.1 = m then some 0 else (findKeyIdx m rest).map (· + 1)

/-- Redis `ZREVRANK key member`: 0-based position of the member in the reading
order (highest score first), `none` if the member is absent. -/
def zrevrank (z : List (Member × Int)) (m : Member) : Option Nat :=
  findKeyIdx m (zrevSorted z)

/-- One element of the list returned by `LeaderboardManager.get_top_users`:
`{'rank': ..., 'user_id': ..., 'score': ...}`. -/
structure LBEntry where
  rank : Nat
  user_id : Member
  score : Int
deriving DecidableEq, Repr

/-- `enumerate(data, start=i)` mapped into `LBEntry`s, as in the loop of
`get_top_users`. -/
def rankEntries : Nat → List (Member × Int) → List LBEntry
  | _, [] => []
  | i, (m, s) :: rest => ⟨i, m, s⟩ :: rankEntries (i + 1) rest

/-- The state visible to a `LeaderboardManager`: whether the Redis connection
was established (`redis_conn` is not `None`) and the contents of the
`global_leaderboard` sorted set. -/
structure RedisState where
  available : Bool
  zset : List (Member × Int)
deriving DecidableEq, Repr

/-- `LeaderboardManager.update_user_score`: `ZADD` when the connection exists,
silently do nothing otherwise. -/
def update_user_score (st : RedisState) (user_id : Member) (new_total_score : Int) :
    RedisState :=
  if st.available then { st with zset := zadd st.zset user_id new_total_score } else st

/-- `LeaderboardManager.get_top_users(count)`: `ZREVRANGE 0 (count-1)` with
scores, enumerated from rank 1; returns `[]` when the connection is down. -/
def get_top_users (st : RedisState) (count : Int) : List LBEntry :=
  if st.available then
    rankEntries 1 (zrevrangeWithScores st.zset (count - 1))
  else []

/-- The dict returned by `LeaderboardManager.get_user_rank_and_score`:
`{'rank': rank-or-None, 'score': int}`. -/
structure RankScore where
  rank : Option Nat
  score : Int
deriving DecidableEq, Repr

/-- `LeaderboardManager.get_user_rank_and_score(user_id)`: 1-based rank from
`ZREVRANK` plus `ZSCORE` (defaulting to 0), or `{'rank': None, 'score': 0}`
when the member is absent or the connection is down. -/
def get_user_rank_and_score (st : RedisState) (user_id : Member) : RankScore :=
  if st.available then
    match zrevrank st.zset user_id with
    | some rank_index => ⟨some (rank_index + 1), (zscore st.zset user_id).getD 0⟩
    | none => ⟨none, 0⟩
  else ⟨none, 0⟩

/-! ### `core/views.py` — `RealTimeLeaderboardView.get` -/

/-- The display attributes fetched from `CustomUser` rows:
`values('id', 'username', 'first_name')`. -/
structure UserDetails where
  username : String
  first_name : String
deriving DecidableEq, Repr

/-- One element of the `global_leaderboard` list after merging Redis data with
the user details from the database. -/
structure MergedEntry where
  rank : Nat
  user_id : Member
  score : Int
  username : String
  first_name : String
deriving DecidableEq, Repr

/-- The `current_user_rank` dict after the view attaches the requesting user's
`username` and `first_name` to the result of `get_user_rank_and_score`. -/
structure RequesterEntry where
  rank : Option Nat
  score : Int
  username : String
  first_name : String
deriving DecidableEq, Repr

/-- The body of the view's 200 response:
`{'global_leaderboard': ..., 'current_user_rank': ...}`;
`current_user_rank` is `None` exactly when the request is unauthenticated. -/
structure LeaderboardResponse where
  global_leaderboard : List MergedEntry
  current_user_rank : Option RequesterEntry
deriving DecidableEq, Repr

/-- Lookup in the `user_details_map` built from the single
`CustomUser.objects.filter(id__in=user_ids)` query.  Primary keys are unique,
so the association list has at most one row per id and first-match lookup
agrees with the Python dict built from the query. -/
def lookupDetails (db : List (Member × UserDetails)) (uid : Member) : Option UserDetails :=
  (db.find? (fun p => p.1 = uid)).map (·.2)

/-- The authenticated requesting user as the view sees it: id (stringified),
username and first name; `none` models an unauthenticated request. -/
abbrev Requester := Option (Member × String × String)

/-- `RealTimeLeaderboardView.get`: top-100 from Redis, user details merged in
(with the `'Unknown User'` / `''` placeholders when the row is missing), and,
when authenticated, `get_user_rank_and_score` for the requester with their own
attributes attached.  The code guards the attachment with
`if user_rank_data:`, but `get_user_rank_and_score` always returns a non-empty
dict (truthy in Python), so the attachment is unconditional here. -/
def realTimeLeaderboardGet (redis : RedisState) (db : List (Member × UserDetails))
    (requester : Requester) : LeaderboardResponse :=
  let top_scores_data := get_top_users redis 100
  let leaderboard_list := top_scores_data.map (fun e =>
    match lookupDetails db e.user_id with
    | some d => MergedEntry.mk e.rank e.user_id e.score d.username d.first_name
    | none => MergedEntry.mk e.rank e.user_id e.score "Unknown User" "")
  let user_rank_data :=
    match requester with
    | some (uid, uname, fname) =>
        let r := get_user_rank_and_score redis uid
        some (RequesterEntry.mk r.rank r.score uname fname)
    | none => none
  ⟨leaderboard_list, user_rank_data⟩

/-! ### `core/signals.py` — `update_leaderboard_on_submission`

The handler is modelled as a state transformer.  The state gathers the pieces
of the world the handler touches: the `ScoreSubmission` table (the ledger),
the `CustomUser` rows' `total_score` column, the Redis state, and the
thread-local re-entrancy flag `_thread_local.processing_leaderboard`
(`getattr(..., False)` makes a deleted attribute equivalent to `false`).

Failures of the external stores are injected through a `Faults` record: the
handler has no `except` clause, only a `finally`, so an exception raised by
the aggregate query (step 2), the targeted `update` (step 3) or the Redis
`zadd` (step 4) aborts the remaining steps, releases the guard, and
propagates. -/

/-- One `ScoreSubmission` row as the handler uses it: the owning player's
stringified id and the submitted score. -/
structure Submission where
  player : Member
  score : Int
deriving DecidableEq, Repr

/-- The state touched by the signal handler. -/
structure SysState where
  ledger : List Submission
  users : List (Member × Int)
  redis : RedisState
  guard : Bool
deriving DecidableEq, Repr

/-- `ScoreSubmission.objects.filter(player=player).aggregate(total=Sum('score'))`:
Django's `Sum` yields `None` on an empty queryset, `some` of the sum
otherwise. -/
def aggregateTotal (ledger : List Submission) (player : Member) : Option Int :=
  let rows := ledger.filter (fun s => s.player = player)
  if rows.isEmpty then none else some ((rows.map (·.score)).sum)

/-- `CustomUser.objects.filter(pk=player.pk).update(total_score=t)`: a targeted
single-column update of the matching rows; a missing row is a no-op. -/
def updateUserTotal (users : List (Member × Int)) (pk : Member) (t : Int) :
    List (Member × Int) :=
  users.map (fun p => if p.1 = pk then (pk, t) else p)

/-- Which of the three externally-failable steps raise in this run. -/
structure Faults where
  aggregateFails : Bool
  dbUpdateFails : Bool
  cacheUpsertFails : Bool
deriving DecidableEq, Repr

/-- The exception that escapes the handler, if any. -/
inductive HandlerErr
  | aggregateRead
  | dbUpdate
  | cacheUpsert
deriving DecidableEq, Repr

/-- `update_leaderboard_on_submission(sender, instance, created)` under an
injected fault configuration: returns the post-state and the escaping
exception, if any.  Control flow mirrors the Python exactly:
`if not created: return`; the thread-local re-entrancy check; then inside
`try`: set the flag, aggregate (step 2), targeted update (step 3), Redis
upsert (step 4); `finally`: delete the flag (making `getattr` yield `False`
again) on every exit path that entered the `try`. -/
def handlerRun (f : Faults) (st : SysState) (instance_ : Submission) (created : Bool) :
    SysState × Option HandlerErr :=
  if !created then (st, none)
  else if st.guard then (st, none)
  else
    -- _thread_local.processing_leaderboard = True, then the body; the
    -- `finally` removes the flag on every path below, so each returned state
    -- carries guard = false.
    if f.aggregateFails then ({ st with guard := false }, some .aggregateRead)
    else
      let new_total_score := (aggregateTotal st.ledger instance_.player).getD 0
      if f.dbUpdateFails then ({ st with guard := false }, some .dbUpdate)
      else
        let st3 : SysState :=
          { st with users := updateUserTotal st.users instance_.player new_total_score }
        if f.cacheUpsertFails then ({ st3 with guard := false }, some .cacheUpsert)
        else
          ({ st3 with
              redis := update_user_score st3.redis instance_.player new_total_score,
              guard := false }, none)

/-- The three-step, no-fault configuration. -/
def noFaults : Faults := ⟨false, false, false⟩

/-- The handler as the surrounding system invokes it when nothing fails. -/
def update_leaderboard_on_submission (st : SysState) (instance_ : Submission)
    (created : Bool) : SysState :=
  (handlerRun noFaults st instance_ created).1

/-- One accepted submission end to end: the row is durably appended to the
ledger by the (excluded) create view, then the `post_save` signal fires with
`created=True`. -/
def processSubmission (st : SysState) (sub : Submission) : SysState :=
  update_leaderboard_on_submission
    { st with ledger := st.ledger ++ [sub] } sub true

/-- A sequence of submissions processed one after the other with no
concurrency. -/
def processAll (st : SysState) : List Submission → SysState
  | [] => st
  | sub :: rest => processAll (processSubmission st sub) rest

/-- The `total_score` column of the user's row, if the row exists. -/
def lookupTotal (users : List (Member × Int)) (u : Member) : Option Int :=
  (users.find? (fun p => p.1 = u)).map (·.2)

/-- The sum of the scores of a player's submissions in a ledger. -/
def sumScores (ledger : List Submission) (u : Member) : Int :=
  ((ledger.filter (fun s => s.player = u)).map (·.score)).sum

/-! ### Helper lemmas about the association-list and sorted-set model -/

theorem findEntry_eq_some {m : Member} {l : List (Member × Int)} {p : Member × Int}
    (h : findEntry m l = some p) : p ∈ l ∧ p.1 = m := by
  induction l with
  | nil => simp [findEntry] at h
  | cons q rest ih =>
    by_cases hq : q.1 = m
    · simp only [findEntry, if_pos hq, Option.some.injEq] at h
      exact ⟨by simp [← h], h ▸ hq⟩
    · simp only [findEntry, if_neg hq] at h
      obtain ⟨h1, h2⟩ := ih h
      exact ⟨List.mem_cons_of_mem _ h1, h2⟩

theorem findEntry_isSome_of_mem {m : Member} {l : List (Member × Int)}
    (h : m ∈ l.map Prod.fst) : ∃ p, findEntry m l = some p := by
  induction l with
  | nil => simp at h
  | cons q rest ih =>
    by_cases hq : q.1 = m
    · exact ⟨q, by simp [findEntry, hq]⟩
    · simp only [List.map_cons, List.mem_cons] at h
      rcases h with h | h
      · exact absurd h.symm hq
      · obtain ⟨p, hp⟩ := ih h
        exact ⟨p, by simp [findEntry, hq, hp]⟩

theorem findKeyIdx_eq_none {m : Member} {l : List (Member × Int)}
    (h : m ∉ l.map Prod.fst) : findKeyIdx m l = none := by
  induction l with
  | nil => rfl
  | cons q rest ih =>
    simp only [List.map_cons, List.mem_cons, not_or] at h
    have hq : ¬q.1 = m := fun hh => h.1 hh.symm
    simp [findKeyIdx, hq, ih h.2]

theorem findKeyIdx_isSome_of_mem {m : Member} {l : List (Member × Int)}
    (h : m ∈ l.map Prod.fst) : ∃ i, findKeyIdx m l = some i := by
  induction l with
  | nil => simp at h
  | cons q rest ih =>
    by_cases hq : q.1 = m
    · exact ⟨0, by simp [findKeyIdx, hq]⟩
    · simp only [List.map_cons, List.mem_cons] at h
      rcases h with h | h
      · exact absurd h.symm hq
      · obtain ⟨i, hi⟩ := ih h
        exact ⟨i + 1, by simp [findKeyIdx, hq, hi]⟩

theorem findKeyIdx_spec {m : Member} {l : List (Member × Int)} {i : Nat}
    (h : findKeyIdx m l = some i) : ∃ p, l[i]? = some p ∧ p.1 = m := by
  induction l generalizing i with
  | nil => simp [findKeyIdx] at h
  | cons q rest ih =>
    by_cases hq : q.1 = m
    · simp only [findKeyIdx, if_pos hq, Option.some.injEq] at h
      exact ⟨q, by simp [← h], hq⟩
    · simp only [findKeyIdx, if_neg hq] at h
      cases hi : findKeyIdx m rest with
      | none => simp [hi] at h
      | some j =>
        rw [hi] at h
        simp only [Option.map_some', Option.some.injEq] at h
        obtain ⟨p, hp1, hp2⟩ := ih hi
        exact ⟨p, by simp [← h, hp1], hp2⟩

theorem eq_of_keys_nodup {l : List (Member × Int)} (h : (l.map Prod.fst).Nodup)
    {p q : Member × Int} (hp : p ∈ l) (hq : q ∈ l) (hk : p.1 = q.1) : p = q := by
  induction l with
  | nil => simp at hp
  | cons a rest ih =>
    simp only [List.map_cons, List.nodup_cons] at h
    rcases List.mem_cons.mp hp with hp' | hp' <;> rcases List.mem_cons.mp hq with hq' | hq'
    · rw [hp', hq']
    · exact absurd (List.mem_map_of_mem Prod.fst hq' : q.1 ∈ rest.map Prod.fst)
        (by rw [← hk, hp']; exact h.1)
    · exact absurd (List.mem_map_of_mem Prod.fst hp' : p.1 ∈ rest.map Prod.fst)
        (by rw [hk, hq']; exact h.1)
    · exact ih h.2 hp' hq'

theorem zrevSorted_length (z : List (Member × Int)) :
    (zrevSorted z).length = z.length :=
  List.length_insertionSort zrevLe z

theorem zrevSorted_mem {z : List (Member × Int)} {p : Member × Int} :
    p ∈ zrevSorted z ↔ p ∈ z :=
  List.mem_insertionSort zrevLe

theorem zrevSorted_sorted (z : List (Member × Int)) :
    List.Sorted zrevLe (zrevSorted z) :=
  List.sorted_insertionSort zrevLe z

theorem zrevSorted_keys_perm (z : List (Member × Int)) :
    ((zrevSorted z).map Prod.fst).Perm (z.map Prod.fst) :=
  (List.perm_insertionSort zrevLe z).map Prod.fst

theorem zrevSorted_keys_nodup {z : List (Member × Int)}
    (h : (z.map Prod.fst).Nodup) : ((zrevSorted z).map Prod.fst).Nodup :=
  ((zrevSorted_keys_perm z).nodup_iff).mpr h

theorem key_mem_iff_any {z : List (Member × Int)} {m : Member} :
    m ∈ z.map Prod.fst ↔ z.any (fun p => p.1 = m) = true := by
  induction z with
  | nil => simp
  | cons q rest ih =>
    simp only [List.map_cons, List.mem_cons, List.any_cons, Bool.or_eq_true,
      decide_eq_true_eq, ih]
    constructor
    · rintro (h | h)
      exacts [Or.inl h.symm, Or.inr h]
    · rintro (h | h)
      exacts [Or.inl h.symm, Or.inr h]

theorem findEntry_map_set {z : List (Member × Int)} {m : Member} (s : Int)
    (hmem : m ∈ z.map Prod.fst) :
    findEntry m (z.map (fun p => if p.1 = m then (m, s) else p)) = some (m, s) := by
  induction z with
  | nil => simp at hmem
  | cons q rest ih =>
    by_cases hq : q.1 = m
    · simp [findEntry, hq]
    · have hrest : m ∈ rest.map Prod.fst := by
        rcases (by simpa using hmem : m = q.1 ∨ m ∈ rest.map Prod.fst) with h | h
        · exact absurd h.symm hq
        · exact h
      simp [findEntry, hq, ih hrest]

theorem findEntry_map_set_other {z : List (Member × Int)} {m m' : Member} (s : Int)
    (h : m' ≠ m) :
    findEntry m' (z.map (fun p => if p.1 = m then (m, s) else p)) = findEntry m' z := by
  induction z with
  | nil => rfl
  | cons q rest ih =>
    by_cases hq : q.1 = m
    · have h1 : ¬m = m' := fun hh => h hh.symm
      have h2 : ¬q.1 = m' := by rw [hq]; exact h1
      simp [findEntry, hq, h1, h2, ih]
    · by_cases hq' : q.1 = m' <;> simp [findEntry, hq, hq', h, ih]

theorem findEntry_append_single {z : List (Member × Int)} {m : Member}
    (p : Member × Int) (hmem : m ∉ z.map Prod.fst) :
    findEntry m (z ++ [p]) = findEntry m [p] := by
  induction z with
  | nil => rfl
  | cons q rest ih =>
    have hq : ¬q.1 = m := fun hh => hmem (by simp [hh])
    have hrest : m ∉ rest.map Prod.fst := fun hh => hmem (by simp [hh])
    simp [findEntry, hq, ih hrest]

theorem findEntry_append_single_other {z : List (Member × Int)} {m' : Member}
    (p : Member × Int) (h : ¬p.1 = m') :
    findEntry m' (z ++ [p]) = findEntry m' z := by
  induction z with
  | nil => simp [findEntry, h]
  | cons q rest ih =>
    by_cases hq' : q.1 = m' <;> simp [findEntry, hq', ih]

theorem zscore_zadd_self (z : List (Member × Int)) (m : Member) (s : Int) :
    zscore (zadd z m s) m = some s := by
  unfold zadd
  by_cases hmem : m ∈ z.map Prod.fst
  · rw [if_pos (key_mem_iff_any.mp hmem)]
    unfold zscore
    rw [findEntry_map_set s hmem]
    rfl
  · rw [if_neg (fun hh => hmem (key_mem_iff_any.mpr hh))]
    unfold zscore
    rw [findEntry_append_single _ hmem]
    simp [findEntry]

theorem zscore_zadd_other {z : List (Member × Int)} {m m' : Member} (s : Int)
    (h : m' ≠ m) : zscore (zadd z m s) m' = zscore z m' := by
  unfold zadd
  by_cases hmem : m ∈ z.map Prod.fst
  · rw [if_pos (key_mem_iff_any.mp hmem)]
    unfold zscore
    rw [findEntry_map_set_other s h]
  · rw [if_neg (fun hh => hmem (key_mem_iff_any.mpr hh))]
    unfold zscore
    rw [findEntry_append_single_other _ (fun hh => h hh.symm)]

theorem rankEntries_length (i : Nat) (l : List (Member × Int)) :
    (rankEntries i l).length = l.length := by
  induction l generalizing i with
  | nil => rfl
  | cons p rest ih => simp [rankEntries, ih]

theorem rankEntries_getElem? (i : Nat) (l : List (Member × Int)) (j : Nat) :
    (rankEntries i l)[j]? = (l[j]?).map (fun p => LBEntry.mk (i + j) p.1 p.2) := by
  induction l generalizing i j with
  | nil => simp [rankEntries]
  | cons p rest ih =>
    cases j with
    | zero => simp [rankEntries]
    | succ j' =>
      simp only [rankEntries, List.getElem?_cons_succ, ih (i + 1) j']
      have h : i + 1 + j' = i + (j' + 1) := by omega
      rw [h]

theorem rankEntries_map_user_id (i : Nat) (l : List (Member × Int)) :
    (rankEntries i l).map LBEntry.user_id = l.map Prod.fst := by
  induction l generalizing i with
  | nil => rfl
  | cons p rest ih => simp [rankEntries, ih]

theorem aggregateTotal_getD (ledger : List Submission) (u : Member) :
    (aggregateTotal ledger u).getD 0 = sumScores ledger u := by
  unfold aggregateTotal sumScores
  by_cases h : (ledger.filter (fun s => s.player = u)).isEmpty
  · simp [h, List.isEmpty_iff.mp h]
  · simp [h]

theorem sumScores_append (l₁ l₂ : List Submission) (u : Member) :
    sumScores (l₁ ++ l₂) u = sumScores l₁ u + sumScores l₂ u := by
  simp [sumScores, List.filter_append]

theorem sumScores_eq_zero_of_not_mem {l : List Submission} {u : Member}
    (h : u ∉ l.map Submission.player) : sumScores l u = 0 := by
  have : l.filter (fun s => s.player = u) = [] := by
    rw [List.filter_eq_nil_iff]
    intro s hs
    simp only [decide_eq_true_eq]
    exact fun hh => h (by simpa [hh] using List.mem_map_of_mem Submission.player hs)
  simp [sumScores, this]

theorem updateUserTotal_keys (users : List (Member × Int)) (pk : Member) (t : Int) :
    (updateUserTotal users pk t).map Prod.fst = users.map Prod.fst := by
  induction users with
  | nil => rfl
  | cons p rest ih =>
    by_cases hp : p.1 = pk <;> simp [updateUserTotal, hp] <;>
      simpa [updateUserTotal] using ih

theorem lookupTotal_updateUserTotal_self {users : List (Member × Int)} {u : Member}
    (t : Int) (h : u ∈ users.map Prod.fst) :
    lookupTotal (updateUserTotal users u t) u = some t := by
  induction users with
  | nil => simp at h
  | cons p rest ih =>
    by_cases hp : p.1 = u
    · simp [updateUserTotal, lookupTotal, hp]
    · have hrest : u ∈ rest.map Prod.fst := by
        rcases (by simpa using h : u = p.1 ∨ u ∈ rest.map Prod.fst) with h' | h'
        · exact absurd h'.symm hp
        · exact h'
      simpa [updateUserTotal, lookupTotal, hp] using ih hrest

theorem lookupTotal_updateUserTotal_other {users : List (Member × Int)} {u v : Member}
    (t : Int) (h : v ≠ u) :
    lookupTotal (updateUserTotal users u t) v = lookupTotal users v := by
  induction users with
  | nil => rfl
  | cons p rest ih =>
    by_cases hp : p.1 = u
    · have h1 : ¬u = v := fun hh => h hh.symm
      have h2 : ¬p.1 = v := by rw [hp]; exact h1
      simpa [updateUserTotal, lookupTotal, hp, h1, h2] using ih
    · by_cases hp' : p.1 = v <;>
        simpa [updateUserTotal, lookupTotal, hp, hp', h] using ih

/-! ### Step lemmas for the signal handler -/

/-- The net effect of processing one accepted submission when the guard is
free: the row is appended, the recomputed sum is written to the user row and
upserted into Redis, and the guard ends free. -/
theorem processSubmission_eq (st : SysState) (sub : Submission)
    (hg : st.guard = false) :
    processSubmission st sub =
      { ledger := st.ledger ++ [sub],
        users := updateUserTotal st.users sub.player
          (sumScores (st.ledger ++ [sub]) sub.player),
        redis := update_user_score st.redis sub.player
          (sumScores (st.ledger ++ [sub]) sub.player),
        guard := false } := by
  simp [processSubmission, update_leaderboard_on_submission, handlerRun, noFaults, hg,
    aggregateTotal_getD]

theorem handlerRun_ledger (f : Faults) (st : SysState) (sub : Submission)
    (created : Bool) : (handlerRun f st sub created).1.ledger = st.ledger := by
  unfold handlerRun
  split_ifs <;> rfl

theorem handlerRun_users_keys (f : Faults) (st : SysState) (sub : Submission)
    (created : Bool) :
    (handlerRun f st sub created).1.users.map Prod.fst = st.users.map Prod.fst := by
  unfold handlerRun
  split_ifs <;> simp [updateUserTotal_keys]

theorem update_user_score_available (st : RedisState) (u : Member) (s : Int) :
    (update_user_score st u s).available = st.available := by
  unfold update_user_score
  split_ifs <;> rfl

theorem update_user_score_zset_of_available {st : RedisState} (u : Member) (s : Int)
    (h : st.available = true) :
    (update_user_score st u s).zset = zadd st.zset u s := by
  simp [update_user_score, h]

/-- Invariant of sequential processing: the ledger grows by exactly the
processed submissions, the guard ends free, Redis stays reachable, the set of
user rows is untouched, and any user who submitted has both the authoritative
total and the cached score equal to the full-ledger sum (users who did not
submit are untouched). -/
theorem processAll_spec (subs : List Submission) (st : SysState) (u : Member)
    (hg : st.guard = false) (hav : st.redis.available = true)
    (hku : u ∈ st.users.map Prod.fst) :
    (processAll st subs).ledger = st.ledger ++ subs ∧
    (processAll st subs).guard = false ∧
    (processAll st subs).redis.available = true ∧
    (processAll st subs).users.map Prod.fst = st.users.map Prod.fst ∧
    (if u ∈ subs.map Submission.player then
       lookupTotal (processAll st subs).users u =
         some (sumScores (processAll st subs).ledger u) ∧
       zscore (processAll st subs).redis.zset u =
         some (sumScores (processAll st subs).ledger u)
     else
       lookupTotal (processAll st subs).users u = lookupTotal st.users u ∧
       zscore (processAll st subs).redis.zset u = zscore st.redis.zset u) := by
  induction subs generalizing st with
  | nil => simp [processAll, hg, hav]
  | cons sub rest ih =>
    have heq := processSubmission_eq st sub hg
    have hstep : processAll st (sub :: rest) = processAll (processSubmission st sub) rest := rfl
    set T := sumScores (st.ledger ++ [sub]) sub.player with hT
    set st₁ : SysState :=
      { ledger := st.ledger ++ [sub],
        users := updateUserTotal st.users sub.player T,
        redis := update_user_score st.redis sub.player T,
        guard := false } with hst₁
    have hg₁ : st₁.guard = false := rfl
    have hav₁ : st₁.redis.available = true := by
      simp [hst₁, update_user_score_available, hav]
    have hku₁ : u ∈ st₁.users.map Prod.fst := by
      simpa [hst₁, updateUserTotal_keys] using hku
    obtain ⟨A1, A2, A3, A4, A5⟩ := ih st₁ hg₁ hav₁ hku₁
    rw [hstep, heq]
    have hledger : (processAll st₁ rest).ledger = st.ledger ++ sub :: rest := by
      rw [A1]
      simp [hst₁]
    refine ⟨hledger, A2, A3, by rw [A4]; simp [hst₁, updateUserTotal_keys], ?_⟩
    have hzset₁ : st₁.redis.zset = zadd st.redis.zset sub.player T := by
      simp [hst₁, update_user_score_zset_of_available _ _ hav]
    by_cases hmem : u ∈ (sub :: rest).map Submission.player
    · rw [if_pos hmem]
      by_cases hr : u ∈ rest.map Submission.player
      · rw [if_pos hr] at A5
        exact A5
      · rw [if_neg hr] at A5
        have hup : sub.player = u := by
          rcases (by simpa using hmem : u = sub.player ∨ u ∈ rest.map Submission.player)
            with h' | h'
          · exact h'.symm
          · exact absurd h' hr
        have hsum : sumScores ((processAll st₁ rest).ledger) u = T := by
          rw [hledger, hT, hup]
          have : st.ledger ++ sub :: rest = (st.ledger ++ [sub]) ++ rest := by simp
          rw [this, sumScores_append]
          have h0 : sumScores rest u = 0 := sumScores_eq_zero_of_not_mem hr
          rw [h0, add_zero]
        refine ⟨?_, ?_⟩
        · rw [A5.1, hsum]
          simp only [hst₁]
          rw [hup]
          exact lookupTotal_updateUserTotal_self T hku
        · rw [A5.2, hsum, hzset₁, hup]
          exact zscore_zadd_self _ _ _
    · rw [if_neg hmem]
      have hne : u ≠ sub.player := fun hh => hmem (by simp [hh])
      have hr : u ∉ rest.map Submission.player := fun hh => hmem (by simp [hh])
      rw [if_neg hr] at A5
      refine ⟨?_, ?_⟩
      · rw [A5.1]
        simp only [hst₁]
        exact lookupTotal_updateUserTotal_other T hne
      · rw [A5.2, hzset₁]
        exact zscore_zadd_other T hne

/-! ### Claim theorems -/

/-- C1: starting from a fresh ledger, for every user present in the
authoritative store, after that user's N-th submission has been fully
processed sequentially (no concurrent submissions), the user's authoritative
`total_score` and the Ranking Cache entry both equal the sum of the scores of
that user's N submissions. -/
theorem c1_sum_invariant (subs : List Submission) (users₀ z₀ : List (Member × Int))
    (u : Member) (hu : u ∈ users₀.map Prod.fst)
    (hs : u ∈ subs.map Submission.player) :
    lookupTotal (processAll ⟨[], users₀, ⟨true, z₀⟩, false⟩ subs).users u =
      some (sumScores subs u) ∧
    zscore (processAll ⟨[], users₀, ⟨true, z₀⟩, false⟩ subs).redis.zset u =
      some (sumScores subs u) := by
  obtain ⟨A1, _, _, _, A5⟩ :=
    processAll_spec subs ⟨[], users₀, ⟨true, z₀⟩, false⟩ u rfl rfl hu
  rw [if_pos hs, A1] at A5
  simpa using A5

/-- Witness for C1: user `"U"` submits 10 then 25; both the authoritative
total and the cached score end at 35. -/
theorem c1_sum_invariant_witness :
    "U" ∈ ([("U", 0)] : List (Member × Int)).map Prod.fst ∧
    "U" ∈ ([⟨"U", 10⟩, ⟨"U", 25⟩] : List Submission).map Submission.player ∧
    (lookupTotal (processAll ⟨[], [("U", 0)], ⟨true, []⟩, false⟩
        [⟨"U", 10⟩, ⟨"U", 25⟩]).users "U" =
      some (sumScores [⟨"U", 10⟩, ⟨"U", 25⟩] "U") ∧
     zscore (processAll ⟨[], [("U", 0)], ⟨true, []⟩, false⟩
        [⟨"U", 10⟩, ⟨"U", 25⟩]).redis.zset "U" =
      some (sumScores [⟨"U", 10⟩, ⟨"U", 25⟩] "U")) :=
  ⟨by decide, by decide,
    c1_sum_invariant [⟨"U", 10⟩, ⟨"U", 25⟩] [("U", 0)] [] "U" (by decide) (by decide)⟩

/-- C3 (counterexample): with the Redis connection down, `get_top_users` and
`get_user_rank_and_score` return exactly the same values as against an
available but empty leaderboard — an empty sequence and the not-found default
— not any distinguishable "cache unavailable" error. -/
theorem c3_counterexample :
    get_top_users ⟨false, [("A", 5)]⟩ 100 = get_top_users ⟨true, []⟩ 100 ∧
    get_user_rank_and_score ⟨false, [("A", 5)]⟩ "A" =
      get_user_rank_and_score ⟨true, []⟩ "A" := by
  exact ⟨by decide, by decide⟩

/-- C3 (amended): when the ranking cache is unavailable, `get_top_users`
silently returns the empty list and `get_user_rank_and_score` silently
returns the default `{'rank': None, 'score': 0}`; no error is surfaced. -/
theorem c3_amended (z : List (Member × Int)) (count : Int) (uid : Member) :
    get_top_users ⟨false, z⟩ count = [] ∧
    get_user_rank_and_score ⟨false, z⟩ uid = ⟨none, 0⟩ :=
  ⟨rfl, rfl⟩

/-- C7: in any invocation in which the targeted authoritative-store update
(step 3) fails, the Redis state — in particular the cache entry for the
user — is left completely unchanged: step 3 is sequenced strictly before the
upsert of step 4. -/
theorem c7_db_fail_no_upsert (f : Faults) (st : SysState) (sub : Submission)
    (created : Bool) (hf : f.dbUpdateFails = true) :
    (handlerRun f st sub created).1.redis = st.redis := by
  unfold handlerRun
  split_ifs <;> simp_all

/-- Witness for C7: a concrete run in which the DB update fails leaves the
concrete Redis state untouched. -/
theorem c7_db_fail_no_upsert_witness :
    (⟨false, true, false⟩ : Faults).dbUpdateFails = true ∧
    (handlerRun ⟨false, true, false⟩
        ⟨[⟨"A", 7⟩], [("A", 0)], ⟨true, [("B", 3)]⟩, false⟩ ⟨"A", 7⟩ true).1.redis =
      (⟨true, [("B", 3)]⟩ : RedisState) :=
  ⟨rfl, c7_db_fail_no_upsert ⟨false, true, false⟩
    ⟨[⟨"A", 7⟩], [("A", 0)], ⟨true, [("B", 3)]⟩, false⟩ ⟨"A", 7⟩ true rfl⟩

/-- C8: if the handler is invoked while the thread-local re-entrancy flag is
already set, it returns immediately with the entire state unchanged and no
exception: no ledger read, no authoritative write, no cache upsert. -/
theorem c8_reentrant_noop (f : Faults) (st : SysState) (sub : Submission)
    (created : Bool) (h : st.guard = true) :
    handlerRun f st sub created = (st, none) := by
  unfold handlerRun
  split_ifs <;> simp_all

/-- Witness for C8: a concrete re-entrant invocation leaves the concrete
state unchanged. -/
theorem c8_reentrant_noop_witness :
    (⟨[⟨"A", 7⟩], [("A", 0)], ⟨true, []⟩, true⟩ : SysState).guard = true ∧
    handlerRun noFaults ⟨[⟨"A", 7⟩], [("A", 0)], ⟨true, []⟩, true⟩ ⟨"A", 7⟩ true =
      (⟨[⟨"A", 7⟩], [("A", 0)], ⟨true, []⟩, true⟩, none) :=
  ⟨rfl, c8_reentrant_noop noFaults ⟨[⟨"A", 7⟩], [("A", 0)], ⟨true, []⟩, true⟩
    ⟨"A", 7⟩ true rfl⟩

/-- C9: after any call that actually entered the engine (guard initially
free), whether it returned normally or any of steps 2–4 raised, the
re-entrancy guard is released; consequently a subsequent submission for a
user present in the store is processed — its authoritative total is
recomputed to the full-ledger sum — rather than skipped. -/
theorem c9_guard_released (f : Faults) (st : SysState) (sub sub₂ : Submission)
    (hg : st.guard = false) (hk : sub₂.player ∈ st.users.map Prod.fst) :
    (handlerRun f st sub true).1.guard = false ∧
    lookupTotal (processSubmission (handlerRun f st sub true).1 sub₂).users sub₂.player =
      some (sumScores ((handlerRun f st sub true).1.ledger ++ [sub₂]) sub₂.player) := by
  have hg' : (handlerRun f st sub true).1.guard = false := by
    unfold handlerRun
    split_ifs <;> simp_all
  refine ⟨hg', ?_⟩
  have hk' : sub₂.player ∈ (handlerRun f st sub true).1.users.map Prod.fst := by
    rw [handlerRun_users_keys]
    exact hk
  rw [processSubmission_eq _ _ hg']
  exact lookupTotal_updateUserTotal_self _ hk'

/-- Witness for C9: after a run in which the Redis upsert raised, the guard is
free and the next submission is fully processed. -/
theorem c9_guard_released_witness :
    (⟨[⟨"A", 7⟩], [("A", 0)], ⟨true, []⟩, false⟩ : SysState).guard = false ∧
    "A" ∈ ([("A", 0)] : List (Member × Int)).map Prod.fst ∧
    ((handlerRun ⟨false, false, true⟩
        ⟨[⟨"A", 7⟩], [("A", 0)], ⟨true, []⟩, false⟩ ⟨"A", 7⟩ true).1.guard = false ∧
     lookupTotal (processSubmission
        (handlerRun ⟨false, false, true⟩
          ⟨[⟨"A", 7⟩], [("A", 0)], ⟨true, []⟩, false⟩ ⟨"A", 7⟩ true).1 ⟨"A", 5⟩).users "A" =
      some (sumScores ((handlerRun ⟨false, false, true⟩
          ⟨[⟨"A", 7⟩], [("A", 0)], ⟨true, []⟩, false⟩ ⟨"A", 7⟩ true).1.ledger ++ [⟨"A", 5⟩]) "A")) :=
  ⟨rfl, by decide,
    c9_guard_released ⟨false, false, true⟩
      ⟨[⟨"A", 7⟩], [("A", 0)], ⟨true, []⟩, false⟩ ⟨"A", 7⟩ ⟨"A", 5⟩ rfl (by decide)⟩

/-- C10: saving an existing `ScoreSubmission` (an update, `created=False`)
makes the handler return immediately: no recomputation, no writes, the whole
state — authoritative totals and ranking cache included — is unchanged. -/
theorem c10_update_noop (f : Faults) (st : SysState) (sub : Submission) :
    handlerRun f st sub false = (st, none) :=
  rfl

/-- C2 (counterexample): with one member in the cache, `get_top_users(0)`
returns that member rather than the empty sequence: `end_index = count - 1`
is `-1`, which Redis `ZREVRANGE` interprets as "up to the last element". -/
theorem c2_counterexample :
    get_top_users ⟨true, [("A", 5)]⟩ 0 = [⟨1, "A", 5⟩] ∧
    get_top_users ⟨true, [("A", 5)]⟩ 0 ≠ [] :=
  ⟨by decide, by decide⟩

/-- C2 (amended): for `count ≥ 1`, `get_top_users` returns
`min count (members)` entries — at most `count`, never more than the
membership, and all members when fewer than `count` exist.  For `count ≤ 0`
the Redis negative-index semantics of `end_index = count - 1` make it return
`members + count` entries (clamped at 0): in particular `count = 0` returns
the whole leaderboard, not the empty sequence. -/
theorem c2_topn_length (z : List (Member × Int)) (count : Int) :
    (get_top_users ⟨true, z⟩ count).length =
      if 1 ≤ count then min count.toNat z.length else (z.length + count).toNat := by
  have hlen : (zrevrangeWithScores z (count - 1)).length =
      if (if count - 1 < 0 then (z.length : Int) + (count - 1) else count - 1) < 0 then 0
      else min ((if count - 1 < 0 then (z.length : Int) + (count - 1) else count - 1).toNat + 1)
        z.length := by
    simp only [zrevrangeWithScores]
    split_ifs <;> simp_all [List.length_take, zrevSorted_length]
  simp only [get_top_users, eq_self_iff_true, if_true, rankEntries_length]
  rw [hlen]
  split_ifs <;> omega

theorem zrevrank_eq_none {z : List (Member × Int)} {uid : Member}
    (h : uid ∉ z.map Prod.fst) : zrevrank z uid = none := by
  apply findKeyIdx_eq_none
  intro hmem
  exact h ((zrevSorted_keys_perm z).mem_iff.mp hmem)

/-- C4 (counterexample): for a requester `D` with no cache entry, the view's
`current_user_rank` is not `null`: it is the defined dict
`{'rank': None, 'score': 0}` with the requester's attributes attached,
because `if user_rank_data:` sees a non-empty (truthy) dict. -/
theorem c4_counterexample :
    (realTimeLeaderboardGet ⟨true, [("A", 100)]⟩
        [("A", ⟨"alice", "Alice"⟩), ("D", ⟨"dave", "Dave"⟩)]
        (some ("D", "dave", "Dave"))).current_user_rank =
      some ⟨none, 0, "dave", "Dave"⟩ ∧
    (realTimeLeaderboardGet ⟨true, [("A", 100)]⟩
        [("A", ⟨"alice", "Alice"⟩), ("D", ⟨"dave", "Dave"⟩)]
        (some ("D", "dave", "Dave"))).current_user_rank ≠ none :=
  ⟨by decide, by decide⟩

/-- C4 (amended): for a user id with no ranking-cache entry,
`get_user_rank_and_score` returns the defined not-found result
`{'rank': None, 'score': 0}` rather than raising; the leaderboard view then
returns a *present* `current_user_rank` entry whose rank is `None` and score
is 0 (carrying the requester's display attributes) — not `null` — and the
top-entries list is exactly what an unauthenticated request would get. -/
theorem c4_unknown_user (z : List (Member × Int)) (db : List (Member × UserDetails))
    (uid : Member) (uname fname : String) (hz : uid ∉ z.map Prod.fst) :
    get_user_rank_and_score ⟨true, z⟩ uid = ⟨none, 0⟩ ∧
    (realTimeLeaderboardGet ⟨true, z⟩ db (some (uid, uname, fname))).current_user_rank =
      some ⟨none, 0, uname, fname⟩ ∧
    (realTimeLeaderboardGet ⟨true, z⟩ db (some (uid, uname, fname))).global_leaderboard =
      (realTimeLeaderboardGet ⟨true, z⟩ db none).global_leaderboard := by
  have h1 : get_user_rank_and_score ⟨true, z⟩ uid = ⟨none, 0⟩ := by
    simp [get_user_rank_and_score, zrevrank_eq_none hz]
  refine ⟨h1, ?_, rfl⟩
  simp [realTimeLeaderboardGet, h1]

/-- Witness for C4: requester `"D"` absent from a one-member cache. -/
theorem c4_unknown_user_witness :
    "D" ∉ ([("A", 100)] : List (Member × Int)).map Prod.fst ∧
    (get_user_rank_and_score ⟨true, [("A", 100)]⟩ "D" = ⟨none, 0⟩ ∧
     (realTimeLeaderboardGet ⟨true, [("A", 100)]⟩ [("A", ⟨"alice", "Alice"⟩)]
        (some ("D", "dave", "Dave"))).current_user_rank =
      some ⟨none, 0, "dave", "Dave"⟩ ∧
     (realTimeLeaderboardGet ⟨true, [("A", 100)]⟩ [("A", ⟨"alice", "Alice"⟩)]
        (some ("D", "dave", "Dave"))).global_leaderboard =
      (realTimeLeaderboardGet ⟨true, [("A", 100)]⟩ [("A", ⟨"alice", "Alice"⟩)]
        none).global_leaderboard) :=
  ⟨by decide, c4_unknown_user [("A", 100)] [("A", ⟨"alice", "Alice"⟩)]
    "D" "dave" "Dave" (by decide)⟩


theorem nodup_getElem?_inj {α : Type} {l : List α} (h : l.Nodup) {i j : Nat} {a : α}
    (hi : l[i]? = some a) (hj : l[j]? = some a) : i = j := by
  rw [List.getElem?_eq_some] at hi hj
  obtain ⟨hi1, hi2⟩ := hi
  obtain ⟨hj1, hj2⟩ := hj
  have h2 : l.get ⟨i, hi1⟩ = l.get ⟨j, hj1⟩ := by simp [hi2, hj2]
  simpa using (h.get_inj_iff (i := ⟨i, hi1⟩) (j := ⟨j, hj1⟩)).mp h2

theorem pairwise_getElem?_rel {α : Type} {R : α → α → Prop} {l : List α}
    (h : l.Pairwise R) {i j : Nat} {a b : α} (hij : i < j)
    (ha : l[i]? = some a) (hb : l[j]? = some b) : R a b := by
  rw [List.getElem?_eq_some] at ha hb
  obtain ⟨hi, ha⟩ := ha
  obtain ⟨hj, hb⟩ := hb
  have := List.pairwise_iff_getElem.mp h i j hi hj hij
  rwa [ha, hb] at this

theorem zrevrange_sorted (z : List (Member × Int)) (stop : Int) :
    List.Sorted zrevLe (zrevrangeWithScores z stop) := by
  have h2 := zrevSorted_sorted z
  unfold List.Sorted at h2
  simp only [zrevrangeWithScores]
  split_ifs <;>
    first
    | exact List.Pairwise.nil
    | exact h2.sublist (List.take_sublist _ _)

theorem zrevrange_keys_nodup {z : List (Member × Int)} (stop : Int)
    (hnd : (z.map Prod.fst).Nodup) :
    ((zrevrangeWithScores z stop).map Prod.fst).Nodup := by
  simp only [zrevrangeWithScores]
  split_ifs <;>
    first
    | exact List.nodup_nil
    | exact ((List.take_sublist _ _).map Prod.fst).nodup (zrevSorted_keys_nodup hnd)

/-- C5 (amended): for every ranking-cache state with distinct members,
`get_top_users` returns entries carrying 1-based ranks equal to their
positions, ordered by score descending; a score tie is broken by the member
id in byte-wise lexicographically *descending* order (a Redis `ZREVRANGE`
property), not by submission arrival order. -/
theorem c5_topn_order (z : List (Member × Int)) (count : Int)
    (hnd : (z.map Prod.fst).Nodup) :
    (∀ (i : Nat) (e : LBEntry),
      (get_top_users ⟨true, z⟩ count)[i]? = some e → e.rank = i + 1) ∧
    (∀ (i j : Nat) (a b : LBEntry), i < j →
      (get_top_users ⟨true, z⟩ count)[i]? = some a →
      (get_top_users ⟨true, z⟩ count)[j]? = some b →
      b.score < a.score ∨ (a.score = b.score ∧ b.user_id ≠ a.user_id ∧
        lexLe b.user_id.data a.user_id.data = true)) := by
  have hout : ∀ k : Nat, (get_top_users ⟨true, z⟩ count)[k]? =
      ((zrevrangeWithScores z (count - 1))[k]?).map
        (fun p => LBEntry.mk (1 + k) p.1 p.2) := by
    intro k
    simp only [get_top_users, eq_self_iff_true, if_true]
    exact rankEntries_getElem? 1 _ k
  constructor
  · intro i e he
    rw [hout i] at he
    rcases hD : (zrevrangeWithScores z (count - 1))[i]? with _ | p
    · rw [hD] at he
      simp at he
    · rw [hD] at he
      simp only [Option.map_some', Option.some.injEq] at he
      rw [← he]
      simp [Nat.add_comm]
  · intro i j a b hij ha hb
    rw [hout i] at ha
    rw [hout j] at hb
    rcases hDa : (zrevrangeWithScores z (count - 1))[i]? with _ | p
    · rw [hDa] at ha
      simp at ha
    rcases hDb : (zrevrangeWithScores z (count - 1))[j]? with _ | q
    · rw [hDb] at hb
      simp at hb
    rw [hDa] at ha
    rw [hDb] at hb
    simp only [Option.map_some', Option.some.injEq] at ha hb
    have hrel : zrevLe p q :=
      pairwise_getElem?_rel (zrevrange_sorted z (count - 1)) hij hDa hDb
    have hne : p.1 ≠ q.1 := by
      intro hpq
      have h1 : ((zrevrangeWithScores z (count - 1)).map Prod.fst)[i]? = some p.1 := by
        rw [List.getElem?_map, hDa]
        rfl
      have h2 : ((zrevrangeWithScores z (count - 1)).map Prod.fst)[j]? = some p.1 := by
        rw [List.getElem?_map, hDb]
        simp [hpq]
      exact absurd (nodup_getElem?_inj (zrevrange_keys_nodup _ hnd) h1 h2)
        (Nat.ne_of_lt hij)
    rw [← ha, ← hb]
    rcases hrel with h | ⟨h1, h2⟩
    · exact Or.inl h
    · exact Or.inr ⟨h1, fun hh => hne ((by simpa using hh : q.1 = p.1)).symm, h2⟩

theorem zscore_entry {z : List (Member × Int)} {m : Member} {s : Int}
    (h : zscore z m = some s) : (m, s) ∈ z := by
  unfold zscore at h
  cases hf : findEntry m z with
  | none =>
    rw [hf] at h
    simp at h
  | some p =>
    rw [hf] at h
    simp only [Option.map_some', Option.some.injEq] at h
    obtain ⟨hmem, hkey⟩ := findEntry_eq_some hf
    have hp : p = (m, s) := by
      cases p
      simp_all
    rwa [hp] at hmem

/-- C6: for every ranking-cache state with distinct members and every pair of
cached users `A`, `B`, if `A`'s stored score is strictly greater than `B`'s,
then the 1-based rank `get_user_rank_and_score` reports for `A` is strictly
smaller than the one for `B`. -/
theorem c6_rank_consistency (z : List (Member × Int)) (A B : Member) (sa sb : Int)
    (hnd : (z.map Prod.fst).Nodup)
    (ha : zscore z A = some sa) (hb : zscore z B = some sb) (hlt : sb < sa) :
    ∃ ra rb : Nat,
      (get_user_rank_and_score ⟨true, z⟩ A).rank = some ra ∧
      (get_user_rank_and_score ⟨true, z⟩ B).rank = some rb ∧
      ra < rb := by
  have hA : (A, sa) ∈ zrevSorted z := zrevSorted_mem.mpr (zscore_entry ha)
  have hB : (B, sb) ∈ zrevSorted z := zrevSorted_mem.mpr (zscore_entry hb)
  have hndS : ((zrevSorted z).map Prod.fst).Nodup := zrevSorted_keys_nodup hnd
  have hAk : A ∈ (zrevSorted z).map Prod.fst := by
    simpa using List.mem_map_of_mem Prod.fst hA
  have hBk : B ∈ (zrevSorted z).map Prod.fst := by
    simpa using List.mem_map_of_mem Prod.fst hB
  obtain ⟨ia, hia⟩ := findKeyIdx_isSome_of_mem hAk
  obtain ⟨ib, hib⟩ := findKeyIdx_isSome_of_mem hBk
  obtain ⟨pa, hpa, hpak⟩ := findKeyIdx_spec hia
  obtain ⟨pb, hpb, hpbk⟩ := findKeyIdx_spec hib
  have hpaA : pa = (A, sa) := eq_of_keys_nodup hndS (List.getElem?_mem hpa) hA (by rw [hpak])
  have hpbB : pb = (B, sb) := eq_of_keys_nodup hndS (List.getElem?_mem hpb) hB (by rw [hpbk])
  have hne : ia ≠ ib := by
    intro hh
    rw [hh, hpb] at hpa
    have : pa = pb := by simpa using hpa.symm
    rw [hpaA, hpbB] at this
    have hs : sa = sb := congrArg Prod.snd this
    omega
  have hlt' : ia < ib := by
    rcases Nat.lt_trichotomy ia ib with h | h | h
    · exact h
    · exact absurd h hne
    · exfalso
      have hrel : zrevLe pb pa :=
        pairwise_getElem?_rel (zrevSorted_sorted z) h hpb hpa
      rw [hpaA, hpbB] at hrel
      simp only [zrevLe] at hrel
      rcases hrel with hcon | ⟨hcon, _⟩
      · omega
      · omega
  refine ⟨ia + 1, ib + 1, ?_, ?_, by omega⟩
  · simp [get_user_rank_and_score, zrevrank, hia]
  · simp [get_user_rank_and_score, zrevrank, hib]

/-- C5 (counterexample): three users with totals 100, 50, 50, inserted in the
order A, B, C (so B's submission settled before C's).  `get_top_users(3)`
returns C at rank 2 and B at rank 3 — ties are broken by descending member
id, not by earlier arrival as the claim states. -/
theorem c5_counterexample :
    get_top_users ⟨true, zadd (zadd (zadd [] "A" 100) "B" 50) "C" 50⟩ 3 =
      [⟨1, "A", 100⟩, ⟨2, "C", 50⟩, ⟨3, "B", 50⟩] ∧
    get_top_users ⟨true, zadd (zadd (zadd [] "A" 100) "B" 50) "C" 50⟩ 3 ≠
      [⟨1, "A", 100⟩, ⟨2, "B", 50⟩, ⟨3, "C", 50⟩] :=
  ⟨by decide, by decide⟩

/-- Witness for C5 (amended) at the cache {A ↦ 100, B ↦ 50, C ↦ 50}. -/
theorem c5_topn_order_witness :
    (([("A", 100), ("B", 50), ("C", 50)] : List (Member × Int)).map Prod.fst).Nodup ∧
    ((∀ (i : Nat) (e : LBEntry),
      (get_top_users ⟨true, [("A", 100), ("B", 50), ("C", 50)]⟩ 3)[i]? = some e →
        e.rank = i + 1) ∧
     (∀ (i j : Nat) (a b : LBEntry), i < j →
      (get_top_users ⟨true, [("A", 100), ("B", 50), ("C", 50)]⟩ 3)[i]? = some a →
      (get_top_users ⟨true, [("A", 100), ("B", 50), ("C", 50)]⟩ 3)[j]? = some b →
      b.score < a.score ∨ (a.score = b.score ∧ b.user_id ≠ a.user_id ∧
        lexLe b.user_id.data a.user_id.data = true))) :=
  ⟨by decide, c5_topn_order [("A", 100), ("B", 50), ("C", 50)] 3 (by decide)⟩

/-- Witness for C6: in the cache {A ↦ 100, B ↦ 50}, A's rank is strictly
smaller than B's. -/
theorem c6_rank_consistency_witness :
    (([("A", 100), ("B", 50)] : List (Member × Int)).map Prod.fst).Nodup ∧
    zscore [("A", 100), ("B", 50)] "A" = some 100 ∧
    zscore [("A", 100), ("B", 50)] "B" = some 50 ∧
    ((50 : Int) < 100) ∧
    (∃ ra rb : Nat,
      (get_user_rank_and_score ⟨true, [("A", 100), ("B", 50)]⟩ "A").rank = some ra ∧
      (get_user_rank_and_score ⟨true, [("A", 100), ("B", 50)]⟩ "B").rank = some rb ∧
      ra < rb) :=
  ⟨by decide, by decide, by decide, by decide,
    c6_rank_consistency [("A", 100), ("B", 50)] "A" "B" 100 50
      (by decide) (by decide) (by decide) (by decide)⟩
